import Mathlib

/-!
Shallow embedding of the per-epoch OOD resampling engine of the Resample
repository (train_conf_resa_quantile.py, train_dist_resa_quantile.py,
train_unsa_gmm.py, train_greedy_epoch.py, train_unsa_rand.py,
train_cla_resa.py), together with theorems settling the frozen claims.

Scores are modelled as rationals; the Python pseudo-random primitives
(`random.sample`, `torch.randperm`, `random.randint`) are modelled as
abstract functions constrained by their documented contracts.
-/

namespace Resample

/-- Python `int(x)` on a rational: truncation toward zero. -/
def pyInt (x : ℚ) : ℤ := if 0 ≤ x then ⌊x⌋ else ⌈x⌉

/-- `spt = int(candidate_ood_size * ood_quantile)` (train_conf_resa_quantile.py
line 162, train_dist_resa_quantile.py line 244, train_greedy_epoch.py line 178),
read as a list offset. -/
def sptOf (K : ℕ) (q : ℚ) : ℕ := (pyInt ((K : ℚ) * q)).toNat

/-- `np.argsort(weights_candidate_ood)`: the positions `0..K-1` ordered by
ascending score. -/
def argsort (scores : List ℚ) : List ℕ :=
  (List.range scores.length).mergeSort
    (fun i j => decide (scores.getD i 0 ≤ scores.getD j 0))

/-- `idxs_sampled = idxs_sorted[spt : spt + m]` (train_conf_resa_quantile.py
line 163, train_dist_resa_quantile.py line 245, train_greedy_epoch.py
line 179). -/
def quantileSlice (scores : List ℚ) (q : ℚ) (m : ℕ) : List ℕ :=
  ((argsort scores).drop (sptOf scores.length q)).take m

/-- `indices_sampled_ood = [indices_candidate_ood[i] for i in idxs_sampled]`
(train_conf_resa_quantile.py line 165, train_unsa_gmm.py line 258). -/
def mapBack (cand : List ℕ) (idxs : List ℕ) : List ℕ :=
  idxs.map (fun i => cand.getD i 0)

/-- `torch.randperm(N)[:m].tolist()` given the drawn permutation `perm`
(train_unsa_gmm.py line 260, train_unsa_rand.py line 201). -/
def uniformSelect (perm : List ℕ) (m : ℕ) : List ℕ := perm.take m

/-- Contract of Python `random.sample(pop, k)`: when `k ≤ |pop|` it returns
`k` elements, always drawn from `pop`, distinct whenever `pop` has no
duplicates. -/
structure SampleSpec (samp : List ℕ → ℕ → List ℕ) : Prop where
  length_eq : ∀ pop k, k ≤ pop.length → (samp pop k).length = k
  subset : ∀ pop k, ∀ x ∈ samp pop k, x ∈ pop
  nodup : ∀ pop k, pop.Nodup → (samp pop k).Nodup

/-- A concrete sampler satisfying `SampleSpec`, used to instantiate
witnesses. -/
def takeSample (pop : List ℕ) (k : ℕ) : List ℕ := pop.take k

/-- `np.digitize(x, bins)` for ascending `bins`: the number of edges `≤ x`.
(train_unsa_gmm.py line 236). -/
def digitize (x : ℚ) (edges : List ℚ) : ℕ :=
  edges.countP (fun e => decide (e ≤ x))

/-- `np.where(bin_labels == lbl)[0]`: the positions of `binLabels` holding
label `lbl` (train_unsa_gmm.py line 240). -/
def binIdxs (binLabels : List ℕ) (lbl : ℕ) : List ℕ :=
  (List.range binLabels.length).filter (fun j => binLabels.getD j 0 == lbl)

/-- Per-bin selection of the density-matched resampler
(train_unsa_gmm.py lines 240-250): if the bin is empty, draw the whole
target count uniformly from the full candidate index range; if it is
under-populated, take all of it and fill the remainder from the full range;
otherwise sample the target count from the bin without replacement. -/
def binSelect (samp : List ℕ → ℕ → List ℕ) (binLabels : List ℕ)
    (lbl c : ℕ) : List ℕ :=
  let idxs := binIdxs binLabels lbl
  if idxs.length = 0 then samp (List.range binLabels.length) c
  else if idxs.length < c then
    idxs ++ samp (List.range binLabels.length) (c - idxs.length)
  else samp idxs c

/-- The loop `for i, target_bin_count in enumerate(target_bin_counts)`
(train_unsa_gmm.py lines 238-250): bins are labelled `i + 1` and only
positive target counts are processed. -/
def selectBins (samp : List ℕ → ℕ → List ℕ) (binLabels : List ℕ) :
    ℕ → List ℕ → List ℕ
  | _, [] => []
  | i, c :: rest =>
      (if 0 < c then binSelect samp binLabels (i + 1) c else []) ++
        selectBins samp binLabels (i + 1) rest

/-- The density-matched selection: run the per-bin loop over all target
counts starting at bin index 0. -/
def selectDensityMatched (samp : List ℕ → ℕ → List ℕ)
    (targetCounts binLabels : List ℕ) : List ℕ :=
  selectBins samp binLabels 0 targetCounts

/-- Normalization of the adjusted mixture curve (train_unsa_gmm.py line 217):
every entry is divided by the total. -/
def normalizeProbs (ws : List ℚ) : List ℚ :=
  ws.map (fun w => w / ws.sum)

/-- `target_bin_counts = [ceil(sampled_ood_size_factor * len(train_set_id) *
p) for p in target_bin_probs]` (train_unsa_gmm.py line 220), with
`m = sampled_ood_size_factor * len(train_set_id)`. -/
def targetBinCounts (probs : List ℚ) (m : ℕ) : List ℕ :=
  probs.map (fun p => (⌈p * (m : ℚ)⌉).toNat)

/-- The per-epoch seed of the deterministic seed chain: seed 0 is the base
seed, and seed `i + 1` is drawn by `random.randint(1000*i, 1000*(i+1))`
after reseeding with seed `i` (train_greedy_epoch.py lines 73-76,
train_unsa_rand.py lines 99-102); `draw s lo hi` models the reseeded
`randint` call. -/
def epochSeed (draw : ℕ → ℕ → ℕ → ℕ) (seed : ℕ) : ℕ → ℕ
  | 0 => seed
  | i + 1 => draw (epochSeed draw seed i) (1000 * i) (1000 * (i + 1))

/-- The full `epoch_seeds` list built by the loop: `epochs + 1` seeds. -/
def epochSeeds (draw : ℕ → ℕ → ℕ → ℕ) (seed epochs : ℕ) : List ℕ :=
  (List.range (epochs + 1)).map (epochSeed draw seed)

/-- The two phases of the epoch scheduler. -/
inductive SchedPhase
  | warmup
  | activeResampling
deriving DecidableEq

/-- The phase of an epoch, decided by `if epoch > args.warmup`
(train_unsa_gmm.py line 178). -/
def schedPhase (warmup epoch : ℕ) : SchedPhase :=
  if warmup < epoch then .activeResampling else .warmup

/-- The per-epoch auxiliary selection of train_unsa_gmm.py (lines 178-260):
beyond the warmup threshold run the density-matched resampler, otherwise
take a uniformly random draw. -/
def epochSelection (samp : List ℕ → ℕ → List ℕ) (warmup epoch : ℕ)
    (targetCounts binLabels uniformDraw : List ℕ) : List ℕ :=
  if warmup < epoch then selectDensityMatched samp targetCounts binLabels
  else uniformDraw

/-- `1.0 - len(set(indices_sampled_ood) & all_indices_sampled_ood) /
len(indices_sampled_ood)` (train_unsa_rand.py line 211). -/
def diversity (sel : List ℕ) (seen : Finset ℕ) : ℚ :=
  1 - ((sel.toFinset ∩ seen).card : ℚ) / (sel.length : ℚ)

/-- `all_indices_sampled_ood.update(indices_sampled_ood)`
(train_unsa_rand.py line 213). -/
def updateSeen (seen : Finset ℕ) (sel : List ℕ) : Finset ℕ :=
  seen ∪ sel.toFinset

/-- One epoch of the diversity diagnostic: the ratio is computed against the
accumulator as it stood before this epoch, then the accumulator is extended
(train_unsa_rand.py lines 211-213). -/
def diversityStep (seen : Finset ℕ) (sel : List ℕ) : ℚ × Finset ℕ :=
  (diversity sel seen, updateSeen seen sel)

/-- `WeightedRandomSampler(resample_weights_ood, num_samples=2*len(train_set_id),
replacement=...)` feeding the loader (train_cla_resa.py line 210); `wdraw`
models the torch sampler, which yields exactly `num_samples` indices into the
weight vector. -/
def weightedSelect (wdraw : List ℚ → ℕ → List ℕ) (weights : List ℚ)
    (trainSetSize : ℕ) : List ℕ :=
  wdraw weights (2 * trainSetSize)

/-! ### Helper lemmas -/

theorem sampleSpec_takeSample : SampleSpec takeSample := by
  refine ⟨?_, ?_, ?_⟩
  · intro pop k hk
    simpa [takeSample] using hk
  · intro pop k x hx
    exact List.mem_of_mem_take hx
  · intro pop k h
    exact h.sublist (List.take_sublist _ _)

theorem argsort_perm (scores : List ℚ) :
    (argsort scores).Perm (List.range scores.length) :=
  List.mergeSort_perm _ _

theorem argsort_length (scores : List ℚ) :
    (argsort scores).length = scores.length := by
  have h := (argsort_perm scores).length_eq
  simpa using h

theorem argsort_nodup (scores : List ℚ) : (argsort scores).Nodup :=
  ((argsort_perm scores).symm.nodup) (List.nodup_range _)

theorem argsort_mem_lt {scores : List ℚ} {i : ℕ} (h : i ∈ argsort scores) :
    i < scores.length := by
  have hm := (argsort_perm scores).mem_iff.mp h
  exact List.mem_range.mp hm

theorem quantileSlice_sublist (scores : List ℚ) (q : ℚ) (m : ℕ) :
    (quantileSlice scores q m).Sublist (argsort scores) :=
  (List.take_sublist _ _).trans (List.drop_sublist _ _)

theorem quantileSlice_length (scores : List ℚ) (q : ℚ) (m : ℕ) :
    (quantileSlice scores q m).length
      = min m (scores.length - sptOf scores.length q) := by
  simp [quantileSlice, argsort_length]

theorem quantileSlice_nodup (scores : List ℚ) (q : ℚ) (m : ℕ) :
    (quantileSlice scores q m).Nodup :=
  (argsort_nodup scores).sublist (quantileSlice_sublist scores q m)

theorem quantileSlice_mem_lt {scores : List ℚ} {q : ℚ} {m : ℕ} {i : ℕ}
    (h : i ∈ quantileSlice scores q m) : i < scores.length :=
  argsort_mem_lt ((quantileSlice_sublist scores q m).mem h)

theorem sptOf_concrete : sptOf 1048576 (1/8) = 131072 := by
  have hx : ((1048576 : ℕ) : ℚ) * (1/8) = 131072 := by norm_num
  have h0 : (0 : ℚ) ≤ ((1048576 : ℕ) : ℚ) * (1/8) := by rw [hx]; norm_num
  rw [sptOf, pyInt, if_pos h0, hx]
  norm_num
  decide

theorem mem_binIdxs {bl : List ℕ} {lbl j : ℕ} :
    j ∈ binIdxs bl lbl ↔ j < bl.length ∧ bl.getD j 0 = lbl := by
  simp [binIdxs, List.mem_filter, List.mem_range]

theorem binIdxs_nodup (bl : List ℕ) (lbl : ℕ) : (binIdxs bl lbl).Nodup :=
  (List.nodup_range _).filter _

theorem binIdxs_mem_lt {bl : List ℕ} {lbl j : ℕ} (h : j ∈ binIdxs bl lbl) :
    j < bl.length :=
  (mem_binIdxs.mp h).1

theorem binSelect_length {samp : List ℕ → ℕ → List ℕ}
    (hs : SampleSpec samp) {bl : List ℕ} (lbl : ℕ) {c : ℕ}
    (hcK : c ≤ bl.length) : (binSelect samp bl lbl c).length = c := by
  rw [binSelect]
  by_cases h0 : (binIdxs bl lbl).length = 0
  · rw [if_pos h0]
    exact hs.length_eq _ _ (by simpa using hcK)
  · rw [if_neg h0]
    by_cases hlt : (binIdxs bl lbl).length < c
    · rw [if_pos hlt, List.length_append]
      have hfill : (samp (List.range bl.length)
          (c - (binIdxs bl lbl).length)).length
          = c - (binIdxs bl lbl).length :=
        hs.length_eq _ _ (by simpa using Nat.le_trans (Nat.sub_le _ _) hcK)
      rw [hfill]
      omega
    · rw [if_neg hlt]
      exact hs.length_eq _ _ (Nat.le_of_not_lt hlt)

theorem mem_binSelect {samp : List ℕ → ℕ → List ℕ}
    (hs : SampleSpec samp) {bl : List ℕ} {lbl c x : ℕ}
    (h : x ∈ binSelect samp bl lbl c) :
    x ∈ binIdxs bl lbl ∨ ∃ k, x ∈ samp (List.range bl.length) k := by
  rw [binSelect] at h
  by_cases h0 : (binIdxs bl lbl).length = 0
  · rw [if_pos h0] at h
    exact Or.inr ⟨c, h⟩
  · rw [if_neg h0] at h
    by_cases hlt : (binIdxs bl lbl).length < c
    · rw [if_pos hlt] at h
      rcases List.mem_append.mp h with h1 | h2
      · exact Or.inl h1
      · exact Or.inr ⟨_, h2⟩
    · rw [if_neg hlt] at h
      exact Or.inl (hs.subset _ _ _ h)

theorem selectBins_length {samp : List ℕ → ℕ → List ℕ}
    (hs : SampleSpec samp) {bl : List ℕ} {tc : List ℕ}
    (htc : ∀ c ∈ tc, c ≤ bl.length) :
    ∀ i, (selectBins samp bl i tc).length = tc.sum := by
  induction tc with
  | nil => intro i; simp [selectBins]
  | cons c rest ih =>
      intro i
      rw [selectBins, List.length_append,
        ih (fun d hd => htc d (List.mem_cons_of_mem _ hd)) (i + 1),
        List.sum_cons]
      by_cases hc : 0 < c
      · rw [if_pos hc, binSelect_length hs _ (htc c (List.mem_cons_self c rest))]
      · rw [if_neg hc]
        simp only [List.length_nil]
        omega

theorem selectDensityMatched_length {samp : List ℕ → ℕ → List ℕ}
    (hs : SampleSpec samp) {bl : List ℕ} {tc : List ℕ}
    (htc : ∀ c ∈ tc, c ≤ bl.length) :
    (selectDensityMatched samp tc bl).length = tc.sum :=
  selectBins_length hs htc 0

theorem mem_selectBins {samp : List ℕ → ℕ → List ℕ}
    (hs : SampleSpec samp) {bl : List ℕ} {tc : List ℕ} {x : ℕ} :
    ∀ i, x ∈ selectBins samp bl i tc →
      (∃ j, j < tc.length ∧ x ∈ binIdxs bl (i + j + 1)) ∨
        ∃ k, x ∈ samp (List.range bl.length) k := by
  induction tc with
  | nil => intro i h; simp [selectBins] at h
  | cons c rest ih =>
      intro i h
      rw [selectBins] at h
      rcases List.mem_append.mp h with h1 | h2
      · by_cases hc : 0 < c
        · rw [if_pos hc] at h1
          rcases mem_binSelect hs h1 with hbin | hfill
          · exact Or.inl ⟨0, by simp, by simpa using hbin⟩
          · exact Or.inr hfill
        · rw [if_neg hc] at h1
          simp at h1
      · rcases ih (i + 1) h2 with ⟨j, hj, hbin⟩ | hfill
        · refine Or.inl ⟨j + 1, by simpa using Nat.succ_lt_succ hj, ?_⟩
          have : i + 1 + j + 1 = i + (j + 1) + 1 := by omega
          rwa [this] at hbin
        · exact Or.inr hfill

theorem selectDensityMatched_mem_lt {samp : List ℕ → ℕ → List ℕ}
    (hs : SampleSpec samp) {bl : List ℕ} {tc : List ℕ} {x : ℕ}
    (h : x ∈ selectDensityMatched samp tc bl) : x < bl.length := by
  rcases mem_selectBins hs 0 h with ⟨j, _, hbin⟩ | ⟨k, hfill⟩
  · exact binIdxs_mem_lt hbin
  · exact List.mem_range.mp (hs.subset _ _ _ hfill)

theorem le_toNat_ceil {p : ℚ} (m : ℕ) (hp : 0 ≤ p) :
    p * (m : ℚ) ≤ ((⌈p * (m : ℚ)⌉).toNat : ℚ) := by
  have hx : (0 : ℚ) ≤ p * (m : ℚ) := by positivity
  have hc : (0 : ℤ) ≤ ⌈p * (m : ℚ)⌉ := Int.ceil_nonneg hx
  have h2 : (((⌈p * (m : ℚ)⌉).toNat : ℕ) : ℚ) = ((⌈p * (m : ℚ)⌉ : ℤ) : ℚ) := by
    exact_mod_cast congrArg (fun z : ℤ => (z : ℚ)) (Int.toNat_of_nonneg hc)
  rw [h2]
  exact Int.le_ceil _

theorem toNat_ceil_le {p : ℚ} (m : ℕ) (hp : 0 ≤ p) :
    (((⌈p * (m : ℚ)⌉).toNat : ℕ) : ℚ) ≤ p * (m : ℚ) + 1 := by
  have hx : (0 : ℚ) ≤ p * (m : ℚ) := by positivity
  have hc : (0 : ℤ) ≤ ⌈p * (m : ℚ)⌉ := Int.ceil_nonneg hx
  have h2 : (((⌈p * (m : ℚ)⌉).toNat : ℕ) : ℚ) = ((⌈p * (m : ℚ)⌉ : ℤ) : ℚ) := by
    exact_mod_cast congrArg (fun z : ℤ => (z : ℚ)) (Int.toNat_of_nonneg hc)
  rw [h2]
  exact le_of_lt (Int.ceil_lt_add_one _)

theorem targetBinCounts_sum_ge (probs : List ℚ) (m : ℕ)
    (hp : ∀ p ∈ probs, 0 ≤ p) :
    probs.sum * (m : ℚ) ≤ ((targetBinCounts probs m).sum : ℚ) := by
  induction probs with
  | nil => simp [targetBinCounts]
  | cons p rest ih =>
      have hp0 := hp p (List.mem_cons_self p rest)
      have hrest := ih (fun x hx => hp x (List.mem_cons_of_mem _ hx))
      simp only [targetBinCounts, List.map_cons, List.sum_cons, Nat.cast_add,
        add_mul] at *
      exact add_le_add (le_toNat_ceil m hp0) hrest

theorem targetBinCounts_sum_le (probs : List ℚ) (m : ℕ)
    (hp : ∀ p ∈ probs, 0 ≤ p) :
    ((targetBinCounts probs m).sum : ℚ)
      ≤ probs.sum * (m : ℚ) + (probs.length : ℚ) := by
  induction probs with
  | nil => simp [targetBinCounts]
  | cons p rest ih =>
      have hp0 := hp p (List.mem_cons_self p rest)
      have hrest := ih (fun x hx => hp x (List.mem_cons_of_mem _ hx))
      simp only [targetBinCounts, List.map_cons, List.sum_cons, Nat.cast_add,
        List.length_cons, Nat.cast_succ] at *
      calc (((⌈p * (m : ℚ)⌉).toNat : ℚ)) + ((targetBinCounts rest m).sum : ℚ)
          ≤ (p * (m : ℚ) + 1) + (rest.sum * (m : ℚ) + (rest.length : ℚ)) :=
            add_le_add (toNat_ceil_le m hp0) hrest
        _ = (p + rest.sum) * (m : ℚ) + ((rest.length : ℚ) + 1) := by ring

theorem targetBinCounts_sum_lower (probs : List ℚ) (m : ℕ)
    (hp : ∀ p ∈ probs, 0 ≤ p) (hsum : probs.sum = 1) :
    m ≤ (targetBinCounts probs m).sum := by
  have h := targetBinCounts_sum_ge probs m hp
  rw [hsum, one_mul] at h
  exact_mod_cast h

theorem targetBinCounts_sum_upper (probs : List ℚ) (m : ℕ)
    (hp : ∀ p ∈ probs, 0 ≤ p) (hsum : probs.sum = 1) :
    (targetBinCounts probs m).sum ≤ m + probs.length := by
  have h := targetBinCounts_sum_le probs m hp
  rw [hsum, one_mul] at h
  exact_mod_cast h

theorem sum_map_div (l : List ℚ) (s : ℚ) :
    (l.map (fun w => w / s)).sum = l.sum / s := by
  induction l with
  | nil => simp
  | cons a t ih => simp [ih, add_div]

theorem normalizeProbs_sum {ws : List ℚ} (h : ws.sum ≠ 0) :
    (normalizeProbs ws).sum = 1 := by
  rw [normalizeProbs, sum_map_div, div_self h]

theorem normalizeProbs_nonneg {ws : List ℚ} (hw : ∀ w ∈ ws, 0 ≤ w) :
    ∀ p ∈ normalizeProbs ws, 0 ≤ p := by
  intro p hp
  rw [normalizeProbs, List.mem_map] at hp
  obtain ⟨w, hwmem, rfl⟩ := hp
  exact div_nonneg (hw w hwmem) (List.sum_nonneg hw)

theorem normalizeProbs_length (ws : List ℚ) :
    (normalizeProbs ws).length = ws.length :=
  List.length_map _ _

theorem getD_mem {l : List ℕ} {i : ℕ} (h : i < l.length) (d : ℕ) :
    l.getD i d ∈ l := by
  rw [List.getD_eq_getElem _ _ h]
  exact List.getElem_mem h

theorem mapBack_mem {cand idxs : List ℕ} {x : ℕ}
    (hlt : ∀ i ∈ idxs, i < cand.length) (h : x ∈ mapBack cand idxs) :
    x ∈ cand := by
  rw [mapBack, List.mem_map] at h
  obtain ⟨i, hi, rfl⟩ := h
  exact getD_mem (hlt i hi) 0

theorem mapBack_length (cand idxs : List ℕ) :
    (mapBack cand idxs).length = idxs.length :=
  List.length_map _ _

theorem mapBack_nodup {cand idxs : List ℕ} (hc : cand.Nodup) (hi : idxs.Nodup)
    (hlt : ∀ i ∈ idxs, i < cand.length) : (mapBack cand idxs).Nodup := by
  rw [mapBack]
  refine List.Nodup.map_on ?_ hi
  intro i hi0 j hj0 heq
  have hi1 := hlt i hi0
  have hj1 := hlt j hj0
  rw [List.getD_eq_getElem _ _ hi1, List.getD_eq_getElem _ _ hj1] at heq
  exact (hc.getElem_inj_iff).mp heq

theorem sptOf_two_half : sptOf 2 (1/2) = 1 := by
  have hx : ((2 : ℕ) : ℚ) * (1/2) = 1 := by norm_num
  have h0 : (0 : ℚ) ≤ ((2 : ℕ) : ℚ) * (1/2) := by rw [hx]; norm_num
  rw [sptOf, pyInt, if_pos h0, hx]
  norm_num

theorem epochSeeds_getD (draw : ℕ → ℕ → ℕ → ℕ) (seed epochs i : ℕ)
    (h : i ≤ epochs) :
    (epochSeeds draw seed epochs).getD i 0 = epochSeed draw seed i := by
  have hlen : i < (epochSeeds draw seed epochs).length := by
    simp [epochSeeds]
    omega
  rw [List.getD_eq_getElem _ _ hlen]
  simp [epochSeeds]

/-! ### Claims -/

/-- C2: the quantile-slice selection is exactly the contiguous band of `m`
sorted-rank positions starting at offset `spt`, mapped back to the candidate
indices without ever producing a duplicate; with a pool of size
`K = 1048576 = 2^20` and quantile `1/8` the offset is `131072`, so the
selection is exactly the sorted-rank band `[131072, 131072 + m)`. -/
theorem C2_quantile_band (scores : List ℚ) (q : ℚ) (m : ℕ) (cand : List ℕ)
    (hnd : cand.Nodup) (hlen : cand.length = scores.length) :
    quantileSlice scores q m
        = ((argsort scores).drop (sptOf scores.length q)).take m ∧
    (quantileSlice scores q m).Nodup ∧
    (mapBack cand (quantileSlice scores q m)).Nodup ∧
    (scores.length = 1048576 →
      quantileSlice scores (1/8) m = ((argsort scores).drop 131072).take m) := by
  refine ⟨rfl, quantileSlice_nodup _ _ _, ?_, ?_⟩
  · exact mapBack_nodup hnd (quantileSlice_nodup _ _ _)
      (fun i hi => hlen ▸ quantileSlice_mem_lt hi)
  · intro hK
    have hspt : sptOf scores.length (1/8) = 131072 := by
      rw [hK]
      exact sptOf_concrete
    rw [quantileSlice, hspt]

/-- Witness for C2 at a concrete pool. -/
theorem C2_quantile_band_witness :
    ([5, 7, 9] : List ℕ).Nodup ∧
    ([5, 7, 9] : List ℕ).length = ([3, 1, 2] : List ℚ).length ∧
    (quantileSlice [3, 1, 2] (1/3) 2).Nodup :=
  ⟨by decide, by decide,
    (C2_quantile_band [3, 1, 2] (1/3) 2 [5, 7, 9] (by decide) (by decide)).2.1⟩

/-- C5: when the slice offset plus the target count exceeds the pool size,
the quantile slice silently returns exactly `K - spt` indices — shorter than
`m`, with no padding (the function is total, so no error is raised). -/
theorem C5_quantile_shrink (scores : List ℚ) (q : ℚ) (m : ℕ)
    (h : scores.length < sptOf scores.length q + m) :
    (quantileSlice scores q m).length
      = scores.length - sptOf scores.length q := by
  rw [quantileSlice_length]
  omega

/-- Witness for C5: pool of 2 scores, offset 1, target 2 — the result has
exactly 1 element. -/
theorem C5_quantile_shrink_witness :
    ([0, 1] : List ℚ).length < sptOf ([0, 1] : List ℚ).length (1/2) + 2 ∧
    (quantileSlice [0, 1] (1/2) 2).length
      = ([0, 1] : List ℚ).length - sptOf ([0, 1] : List ℚ).length (1/2) := by
  have hs : sptOf ([0, 1] : List ℚ).length (1/2) = 1 := sptOf_two_half
  refine ⟨by rw [hs]; decide, C5_quantile_shrink [0, 1] (1/2) 2 (by rw [hs]; decide)⟩

/-- C6: the per-epoch seed chain is a pure deterministic function of the base
seed: the list has `epochs + 1` entries, entry 0 is the base seed, entry
`i + 1` is drawn by reseeding with entry `i` over the window
`[1000 i, 1000 (i+1)]`, every entry equals the pure function `epochSeed` of
the base seed, and two runs with the same base seed and epoch count produce
identical chains. -/
theorem C6_seed_chain (draw : ℕ → ℕ → ℕ → ℕ) (seed epochs : ℕ) :
    (epochSeeds draw seed epochs).length = epochs + 1 ∧
    (epochSeeds draw seed epochs).getD 0 0 = seed ∧
    (∀ i, i < epochs →
      (epochSeeds draw seed epochs).getD (i + 1) 0
        = draw ((epochSeeds draw seed epochs).getD i 0)
            (1000 * i) (1000 * (i + 1))) ∧
    (∀ i, i ≤ epochs →
      (epochSeeds draw seed epochs).getD i 0 = epochSeed draw seed i) ∧
    (∀ seed2 epochs2, seed2 = seed → epochs2 = epochs →
      epochSeeds draw seed2 epochs2 = epochSeeds draw seed epochs) := by
  refine ⟨?_, ?_, ?_, ?_, ?_⟩
  · simp [epochSeeds]
  · rw [epochSeeds_getD draw seed epochs 0 (Nat.zero_le _)]
    rfl
  · intro i hi
    rw [epochSeeds_getD draw seed epochs (i + 1) (by omega),
      epochSeeds_getD draw seed epochs i (by omega)]
    rfl
  · intro i hi
    exact epochSeeds_getD draw seed epochs i hi
  · intro seed2 epochs2 h1 h2
    rw [h1, h2]

/-- Witness for C6 with a concrete draw function. -/
theorem C6_seed_chain_witness :
    (epochSeeds (fun s lo _ => s + lo) 5 2).getD 1 0
      = (epochSeeds (fun s lo _ => s + lo) 5 2).getD 0 0 + 0 :=
  (C6_seed_chain (fun s lo _ => s + lo) 5 2).2.2.1 0 (by decide)

/-- C7: at epochs up to the warmup threshold the auxiliary selection is the
uniform draw and the scheduler is in the Warmup phase; beyond the threshold
the density-matched resampler runs, and the transition is one-way: every
later epoch stays in the ActiveResampling phase with the resampler active,
decided solely by the epoch index. -/
theorem C7_warmup_transition (samp : List ℕ → ℕ → List ℕ) (w e : ℕ)
    (tc bl uni : List ℕ) :
    (e ≤ w → schedPhase w e = SchedPhase.warmup ∧
        epochSelection samp w e tc bl uni = uni) ∧
    (w < e → schedPhase w e = SchedPhase.activeResampling ∧
        epochSelection samp w e tc bl uni = selectDensityMatched samp tc bl) ∧
    (w < e → ∀ e2, e ≤ e2 →
      schedPhase w e2 = SchedPhase.activeResampling ∧
        epochSelection samp w e2 tc bl uni = selectDensityMatched samp tc bl) := by
  refine ⟨?_, ?_, ?_⟩
  · intro he
    have hn : ¬ w < e := Nat.not_lt.mpr he
    rw [schedPhase, if_neg hn, epochSelection, if_neg hn]
    exact ⟨rfl, rfl⟩
  · intro he
    rw [schedPhase, if_pos he, epochSelection, if_pos he]
    exact ⟨rfl, rfl⟩
  · intro he e2 he2
    have he3 : w < e2 := Nat.lt_of_lt_of_le he he2
    rw [schedPhase, if_pos he3, epochSelection, if_pos he3]
    exact ⟨rfl, rfl⟩

/-- Witness for C7 at concrete epochs around a warmup threshold of 1. -/
theorem C7_warmup_transition_witness :
    (1 ≤ 1 ∧ 1 < 2) ∧
    (schedPhase 1 1 = SchedPhase.warmup ∧
      epochSelection takeSample 1 1 [1] [1] [9] = [9]) ∧
    (schedPhase 1 3 = SchedPhase.activeResampling ∧
      epochSelection takeSample 1 3 [1] [1] [9]
        = selectDensityMatched takeSample [1] [1]) :=
  ⟨⟨by decide, by decide⟩,
    (C7_warmup_transition takeSample 1 1 [1] [1] [9]).1 (by decide),
    (C7_warmup_transition takeSample 1 2 [1] [1] [9]).2.2 (by decide) 3 (by decide)⟩

/-- C1 counterexample: with the 100 equal-probability target bins produced by
normalizing a flat curve, target count m = 2 and two candidates (both in
bin 1), the density-matched selection has 100 elements, not 2: the per-bin
ceiling counts sum to 100. -/
theorem C1_counterexample :
    (selectDensityMatched takeSample
        (targetBinCounts (normalizeProbs (List.replicate 100 (1 : ℚ))) 2)
        [1, 1]).length ≠ 2 := by
  have hsum : (List.replicate 100 (1 : ℚ)).sum = 100 := by
    rw [List.sum_replicate, nsmul_eq_mul, mul_one]
    norm_num
  have hprobs : normalizeProbs (List.replicate 100 (1 : ℚ))
      = List.replicate 100 ((1 : ℚ) / 100) := by
    rw [normalizeProbs, hsum, List.map_replicate]
  have hceil : (⌈((1 : ℚ) / 100) * ((2 : ℕ) : ℚ)⌉ : ℤ) = 1 := by
    rw [Int.ceil_eq_iff]
    constructor <;> norm_num
  have htc : targetBinCounts (List.replicate 100 ((1 : ℚ) / 100)) 2
      = List.replicate 100 1 := by
    rw [targetBinCounts, List.map_replicate, hceil]
    rfl
  rw [hprobs, htc]
  decide

/-- C1 (amended): the quantile slice returns `min(m, K - spt)` indices; the
uniform warmup draw returns exactly `m`; the weighted sampler returns exactly
its requested `num_samples = 2 * len(train_set_id)`; the density-matched
selection returns the sum of the per-bin ceiling target counts, which is at
least `m` and at most `m + B` but in general exceeds `m` (the ceiling excess
is kept, not trimmed). -/
theorem C1_selection_sizes (scores : List ℚ) (q : ℚ) (m : ℕ)
    (perm : List ℕ) (hperm : m ≤ perm.length)
    (samp : List ℕ → ℕ → List ℕ) (hs : SampleSpec samp)
    (probs : List ℚ) (bl : List ℕ)
    (hp : ∀ p ∈ probs, 0 ≤ p) (hsum : probs.sum = 1)
    (htc : ∀ c ∈ targetBinCounts probs m, c ≤ bl.length)
    (wdraw : List ℚ → ℕ → List ℕ) (weights : List ℚ) (n : ℕ)
    (hwd : ∀ wts k, (wdraw wts k).length = k) :
    (quantileSlice scores q m).length
        = min m (scores.length - sptOf scores.length q) ∧
    (uniformSelect perm m).length = m ∧
    (weightedSelect wdraw weights n).length = 2 * n ∧
    (selectDensityMatched samp (targetBinCounts probs m) bl).length
        = (targetBinCounts probs m).sum ∧
    m ≤ (targetBinCounts probs m).sum ∧
    (targetBinCounts probs m).sum ≤ m + probs.length := by
  refine ⟨quantileSlice_length _ _ _, ?_, hwd weights (2 * n),
    selectDensityMatched_length hs htc,
    targetBinCounts_sum_lower probs m hp hsum,
    targetBinCounts_sum_upper probs m hp hsum⟩
  rw [uniformSelect, List.length_take]
  omega

/-- Witness for C1 at a concrete configuration. -/
theorem C1_selection_sizes_witness :
    1 ≤ ([0] : List ℕ).length ∧ ([(1 : ℚ)] : List ℚ).sum = 1 ∧
    (uniformSelect [0] 1).length = 1 ∧
    1 ≤ (targetBinCounts [(1 : ℚ)] 1).sum := by
  have h := C1_selection_sizes [0] 0 1 [0] (by decide) takeSample
    sampleSpec_takeSample [(1 : ℚ)] [1] (by decide) (by simp)
    (by simp [targetBinCounts]) (fun _ k => List.replicate k 0) [] 0
    (by intro wts k; simp)
  exact ⟨by decide, by simp, h.2.1, h.2.2.2.2.1⟩

/-- C3: after normalization the target bin probabilities sum to 1, the
per-bin target count is by construction the ceiling of the bin probability
times the target count over the 100 bins, and the total of all per-bin
target counts lies between `m` and `m + 100`. -/
theorem C3_target_counts (ws : List ℚ) (m : ℕ)
    (hw : ∀ w ∈ ws, 0 ≤ w) (hpos : ws.sum ≠ 0) (hB : ws.length = 100) :
    (normalizeProbs ws).sum = 1 ∧
    targetBinCounts (normalizeProbs ws) m
        = (normalizeProbs ws).map (fun p => (⌈p * (m : ℚ)⌉).toNat) ∧
    m ≤ (targetBinCounts (normalizeProbs ws) m).sum ∧
    (targetBinCounts (normalizeProbs ws) m).sum ≤ m + 100 := by
  have h1 := normalizeProbs_sum hpos
  have h2 := normalizeProbs_nonneg hw
  refine ⟨h1, rfl, targetBinCounts_sum_lower _ m h2 h1, ?_⟩
  have h3 := targetBinCounts_sum_upper _ m h2 h1
  rwa [normalizeProbs_length, hB] at h3

/-- Witness for C3 on a flat 100-bin curve with target count 7. -/
theorem C3_target_counts_witness :
    (List.replicate 100 (1 : ℚ)).length = 100 ∧
    7 ≤ (targetBinCounts (normalizeProbs (List.replicate 100 (1 : ℚ))) 7).sum ∧
    (targetBinCounts (normalizeProbs (List.replicate 100 (1 : ℚ))) 7).sum
      ≤ 7 + 100 := by
  have h := C3_target_counts (List.replicate 100 (1 : ℚ)) 7
    (by intro w hw0; rw [List.eq_of_mem_replicate hw0]; decide)
    (by rw [List.sum_replicate, nsmul_eq_mul, mul_one]; norm_num)
    (by simp)
  exact ⟨by simp, h.2.2.1, h.2.2.2⟩

/-- C4: a bin with positive target count contributes exactly that count: a
sufficiently populated bin is sampled without replacement from inside the
bin; an under-populated bin is taken whole and topped up from the entire
candidate index range; an empty bin falls back entirely to the full range —
a local recovery, not an error. -/
theorem C4_bin_fill (samp : List ℕ → ℕ → List ℕ) (hs : SampleSpec samp)
    (bl : List ℕ) (lbl c : ℕ) (hc : 0 < c) (hcK : c ≤ bl.length) :
    (binSelect samp bl lbl c).length = c ∧
    (binIdxs bl lbl = [] →
        binSelect samp bl lbl c = samp (List.range bl.length) c) ∧
    (c ≤ (binIdxs bl lbl).length →
        binSelect samp bl lbl c = samp (binIdxs bl lbl) c ∧
        (∀ x ∈ binSelect samp bl lbl c, x ∈ binIdxs bl lbl) ∧
        (binSelect samp bl lbl c).Nodup) ∧
    ((binIdxs bl lbl).length < c →
        binSelect samp bl lbl c
          = binIdxs bl lbl
              ++ samp (List.range bl.length) (c - (binIdxs bl lbl).length) ∧
        (∀ x ∈ samp (List.range bl.length) (c - (binIdxs bl lbl).length),
          x < bl.length)) := by
  refine ⟨binSelect_length hs lbl hcK, ?_, ?_, ?_⟩
  · intro h0
    rw [binSelect, if_pos (by rw [h0]; rfl)]
  · intro hge
    have h0 : ¬ (binIdxs bl lbl).length = 0 := by omega
    have hlt : ¬ (binIdxs bl lbl).length < c := by omega
    have heq : binSelect samp bl lbl c = samp (binIdxs bl lbl) c := by
      rw [binSelect, if_neg h0, if_neg hlt]
    refine ⟨heq, ?_, ?_⟩
    · intro x hx
      rw [heq] at hx
      exact hs.subset _ _ _ hx
    · rw [heq]
      exact hs.nodup _ _ (binIdxs_nodup bl lbl)
  · intro hlt
    constructor
    · by_cases h0 : (binIdxs bl lbl).length = 0
      · have hnil : binIdxs bl lbl = [] := List.length_eq_zero.mp h0
        rw [binSelect, if_pos h0, hnil]
        simp
      · rw [binSelect, if_neg h0, if_pos hlt]
    · intro x hx
      exact List.mem_range.mp (hs.subset _ _ _ hx)

/-- Witness for C4 on a concrete populated bin. -/
theorem C4_bin_fill_witness :
    (0 < 2 ∧ 2 ≤ ([1, 1, 2] : List ℕ).length) ∧
    (binSelect takeSample [1, 1, 2] 1 2).length = 2 ∧
    (2 ≤ (binIdxs [1, 1, 2] 1).length →
      binSelect takeSample [1, 1, 2] 1 2 = takeSample (binIdxs [1, 1, 2] 1) 2 ∧
      (∀ x ∈ binSelect takeSample [1, 1, 2] 1 2, x ∈ binIdxs [1, 1, 2] 1) ∧
      (binSelect takeSample [1, 1, 2] 1 2).Nodup) := by
  have h := C4_bin_fill takeSample sampleSpec_takeSample [1, 1, 2] 1 2
    (by decide) (by decide)
  exact ⟨⟨by decide, by decide⟩, h.1, h.2.2.1⟩

/-- C8: every selected index is a member of the epoch's drawn candidate set:
both the quantile-slice path and the density-matched path (fallback
included) map positions below the candidate count through the candidate
index array. -/
theorem C8_selection_within_candidates (cand : List ℕ) (scores : List ℚ)
    (q : ℚ) (m : ℕ) (hlen : scores.length = cand.length)
    (samp : List ℕ → ℕ → List ℕ) (hs : SampleSpec samp)
    (tc bl : List ℕ) (hbl : bl.length = cand.length) :
    (∀ x ∈ mapBack cand (quantileSlice scores q m), x ∈ cand) ∧
    (∀ x ∈ mapBack cand (selectDensityMatched samp tc bl), x ∈ cand) := by
  constructor
  · intro x hx
    exact mapBack_mem (fun i hi => hlen ▸ quantileSlice_mem_lt hi) hx
  · intro x hx
    exact mapBack_mem
      (fun i hi => hbl ▸ selectDensityMatched_mem_lt hs hi) hx

/-- Witness for C8 on a concrete candidate set. -/
theorem C8_selection_within_candidates_witness :
    ([9, 4, 7] : List ℚ).length = ([10, 20, 30] : List ℕ).length ∧
    ([2, 1, 1] : List ℕ).length = ([10, 20, 30] : List ℕ).length ∧
    (∀ x ∈ mapBack [10, 20, 30] (quantileSlice [9, 4, 7] (1/3) 2),
      x ∈ ([10, 20, 30] : List ℕ)) := by
  have h := C8_selection_within_candidates [10, 20, 30] [9, 4, 7] (1/3) 2
    (by decide) takeSample sampleSpec_takeSample [1, 1] [2, 1, 1] (by decide)
  exact ⟨by decide, by decide, h.1⟩

/-- C9: the diversity ratio is 1 when the selection is disjoint from the
previously-seen accumulator and 0 when the selection lies entirely inside
it; in the per-epoch step the ratio is computed against the pre-update
accumulator and only afterwards is the accumulator extended. -/
theorem C9_diversity (sel : List ℕ) (seen : Finset ℕ)
    (hne : sel ≠ []) (hnd : sel.Nodup) :
    ((∀ x ∈ sel, x ∉ seen) → diversity sel seen = 1) ∧
    ((∀ x ∈ sel, x ∈ seen) → diversity sel seen = 0) ∧
    diversityStep seen sel = (diversity sel seen, seen ∪ sel.toFinset) := by
  refine ⟨?_, ?_, rfl⟩
  · intro hdisj
    have hempty : sel.toFinset ∩ seen = ∅ := by
      apply Finset.eq_empty_of_forall_not_mem
      intro x hx
      rcases Finset.mem_inter.mp hx with ⟨hx1, hx2⟩
      exact hdisj x (List.mem_toFinset.mp hx1) hx2
    rw [diversity, hempty]
    simp
  · intro hall
    have hfull : sel.toFinset ∩ seen = sel.toFinset := by
      apply Finset.inter_eq_left.mpr
      intro x hx
      exact hall x (List.mem_toFinset.mp hx)
    have hcard : (sel.toFinset.card : ℚ) = (sel.length : ℚ) := by
      exact_mod_cast congrArg Nat.cast (List.toFinset_card_of_nodup hnd)
    have hlen : (sel.length : ℚ) ≠ 0 := by
      have : sel.length ≠ 0 := by
        intro h0
        exact hne (List.length_eq_zero.mp h0)
      exact_mod_cast this
    rw [diversity, hfull, hcard, div_self hlen]
    ring

/-- Witness for C9 on a concrete selection. -/
theorem C9_diversity_witness :
    (([3, 5] : List ℕ) ≠ [] ∧ ([3, 5] : List ℕ).Nodup) ∧
    ((∀ x ∈ ([3, 5] : List ℕ), x ∉ ({7, 9} : Finset ℕ)) →
      diversity [3, 5] {7, 9} = 1) ∧
    ((∀ x ∈ ([3, 5] : List ℕ), x ∈ ({7, 9} : Finset ℕ)) →
      diversity [3, 5] {7, 9} = 0) :=
  ⟨⟨by decide, by decide⟩,
    (C9_diversity [3, 5] {7, 9} (by decide) (by decide)).1,
    (C9_diversity [3, 5] {7, 9} (by decide) (by decide)).2.1⟩

/-- C10: a candidate whose score reaches every histogram edge (in particular
the maximum score, which equals the last of the 101 edges) is digitized to
label 101; no bin of the per-bin loop (labels 1..100) contains it, so it can
enter the selection only through a full-range fallback draw. -/
theorem C10_max_score_unreachable (edges : List ℚ) (x : ℚ)
    (samp : List ℕ → ℕ → List ℕ) (hs : SampleSpec samp)
    (tc bl : List ℕ) (hB : tc.length = 100) (hlen : edges.length = 101)
    (hmax : ∀ e ∈ edges, e ≤ x) (j : ℕ) (hj : bl.getD j 0 = 101) :
    digitize x edges = 101 ∧
    (∀ i, i < tc.length → j ∉ binIdxs bl (i + 1)) ∧
    (j ∈ selectDensityMatched samp tc bl →
      ∃ k, j ∈ samp (List.range bl.length) k) := by
  refine ⟨?_, ?_, ?_⟩
  · rw [digitize, List.countP_eq_length.mpr ?_, hlen]
    intro a ha
    exact decide_eq_true (hmax a ha)
  · intro i hi hmem
    have hlbl := (mem_binIdxs.mp hmem).2
    rw [hj] at hlbl
    omega
  · intro hsel
    rcases mem_selectBins hs 0 hsel with ⟨i, hi, hbin⟩ | hfill
    · have hlbl := (mem_binIdxs.mp hbin).2
      rw [hj] at hlbl
      omega
    · exact hfill

/-- Witness for C10: one candidate carrying label 101 enters only through
the fallback draw. -/
theorem C10_max_score_unreachable_witness :
    (List.replicate 100 (1 : ℕ)).length = 100 ∧
    (List.replicate 101 (0 : ℚ)).length = 101 ∧
    ([101] : List ℕ).getD 0 0 = 101 ∧
    digitize 0 (List.replicate 101 (0 : ℚ)) = 101 := by
  have h := C10_max_score_unreachable (List.replicate 101 (0 : ℚ)) 0
    takeSample sampleSpec_takeSample (List.replicate 100 1) [101]
    (by simp) (by simp)
    (by intro e he; rw [List.eq_of_mem_replicate he]) 0 (by decide)
  exact ⟨by simp, by simp, by decide, h.1⟩

end Resample
